import Mathlib

/-!
Verification of the wallpaper_slideshow repository (Rust) against its
natural-language specification, via a shallow embedding in Lean 4.

Conventions of the embedding:
* Rust machine integers become `Nat` / `Int`; `i32 %` is `Int.tmod`
  (truncated remainder, as in Rust).
* Rust `String` byte-level operations (`len`, `&s[a..b]`, `parse`) are
  embedded over `List Nat` (the UTF-8 bytes); a byte slice that is not on
  a character boundary panics in Rust, which we model with an outer
  `Option` (`none` = panic).
* Fallible operations return `Option` / `Except`.
* External collaborators (EXIF library, filesystem walk, SQLite engine,
  RNG) are passed in as explicit data: the RNG becomes an arbitrary `Nat`
  index, the SQLite table becomes a list of rows, a file becomes its list
  of lines, a decoded image becomes its list of RGB pixels.
* `f64` arithmetic in the palette extractor is embedded over `ℚ`;
  the single float comparison key `saturation * sqrt(count)` is compared
  via the equivalent squared form `saturation^2 * count` (both sides are
  nonnegative, and squaring is monotone there).
-/

namespace WallpaperSlideshow

/-! ## Time difference (src/main.rs, `calculate_time_diff`) -/

/-- Embeds `calculate_time_diff` from src/main.rs:
`let mut diff = (current - image + 24) % 24; if diff > 12 { diff = 24 - diff; } diff`.
Rust `%` on `i32` is truncated remainder, i.e. `Int.tmod`. -/
def calculate_time_diff (current image : Int) : Int :=
  let diff := Int.tmod (current - image + 24) 24
  if diff > 12 then 24 - diff else diff

/-! ## Candidate selection (src/main.rs, `main`, lines 93–125) -/

/-- Embeds the `ImageCandidate` struct of src/main.rs
(`path: PathBuf, hour: Option<u8>`). -/
structure ImageCandidate where
  path : String
  hour : Option Nat
  deriving Repr, DecidableEq

/-- The constant `TIME_WINDOW` of src/main.rs. -/
def TIME_WINDOW : Int := 1

/-- The mutable loop state of the selection loop in `main`
(`best_match`, `best_diff`, `time_window_matches`). The matches are kept
by value rather than by reference, which is observationally identical. -/
structure SelState where
  best_match : Option ImageCandidate
  best_diff : Int
  time_window_matches : List ImageCandidate
  deriving Repr

/-- One iteration of the `for candidate in &candidates` loop in `main`. -/
def selStep (current : Int) (s : SelState) (c : ImageCandidate) : SelState :=
  match c.hour with
  | none => s
  | some image_hour =>
    let diff := calculate_time_diff current image_hour
    let s1 :=
      if diff ≤ TIME_WINDOW then
        { s with time_window_matches := s.time_window_matches ++ [c] }
      else s
    if diff < s1.best_diff then
      { s1 with best_diff := diff, best_match := some c }
    else s1

/-- The whole selection loop of `main`, as a tail recursion over the
candidate list (identical to the Rust `for` loop). -/
def selLoop (current : Int) : List ImageCandidate → SelState → SelState
  | [], s => s
  | c :: rest, s => selLoop current rest (selStep current s c)

/-- Embeds `SliceRandom::choose` (rand crate): a uniformly random element of
the slice, `None` iff the slice is empty. The random draw is externalized
into the index `k`. -/
def chooseFrom {α : Type} (l : List α) (k : Nat) : Option α :=
  if l.isEmpty then none else l[k % l.length]?

/-- Embeds the selection performed by `main` in src/main.rs lines 93–125:
run the loop, then pick from the time-window matches if any, else the best
match if any candidate had an hour, else a random candidate.
`k` externalizes `rand::rng()`. -/
def selectWallpaper (current : Int) (candidates : List ImageCandidate) (k : Nat) :
    Option ImageCandidate :=
  let s := selLoop current candidates ⟨none, 24, []⟩
  if !s.time_window_matches.isEmpty then
    chooseFrom s.time_window_matches k
  else
    match s.best_match with
    | some best => some best
    | none => chooseFrom candidates k

/-- Spec-side: whether a candidate has a known hour within the time window
of the current hour. -/
def inWindow (current : Int) (c : ImageCandidate) : Bool :=
  match c.hour with
  | some h => calculate_time_diff current h ≤ TIME_WINDOW
  | none => false

/-- Spec-side: the time-window set, i.e. the candidates with a known hour
whose circular distance to the current hour is at most `TIME_WINDOW`. -/
def windowSet (current : Int) (candidates : List ImageCandidate) : List ImageCandidate :=
  candidates.filter (inWindow current)

/-- Spec-side: the minimal circular distance over the candidates that have
a known hour (`none` when no candidate has a known hour). -/
def minDiff (current : Int) : List ImageCandidate → Option Int
  | [] => none
  | c :: rest =>
    match c.hour with
    | none => minDiff current rest
    | some h =>
      let d := calculate_time_diff current h
      match minDiff current rest with
      | none => some d
      | some m => some (min d m)

/-- Spec-side: whether a candidate has a known hour at circular distance
exactly `m` from the current hour. -/
def atMinDiff (current m : Int) (c : ImageCandidate) : Bool :=
  match c.hour with
  | some h => calculate_time_diff current h = m
  | none => false

/-- Spec-side: the first candidate in list order whose circular distance to
the current hour is globally minimal (`none` when no candidate has a known
hour). -/
def firstGlobalMin (current : Int) (candidates : List ImageCandidate) :
    Option ImageCandidate :=
  match minDiff current candidates with
  | none => none
  | some m => candidates.find? (atMinDiff current m)

/-- Spec-side helper: the best (candidate, distance) pair in direct
recursion form — the head candidate wins unless the best of the tail is
strictly closer (matching the loop's first-encountered-wins tie-break). -/
def bestOf (current : Int) : List ImageCandidate → Option (ImageCandidate × Int)
  | [] => none
  | c :: rest =>
    match c.hour with
    | none => bestOf current rest
    | some h =>
      let d := calculate_time_diff current h
      match bestOf current rest with
      | none => some (c, d)
      | some (c2, d2) => if d2 < d then some (c2, d2) else some (c, d)

/-! ## Pool filtering (src/main.rs, `main`, lines 60–74) -/

/-- An image found by the directory walk: path and mtime
(the `(PathBuf, i64)` pairs of `all_images` in src/main.rs). -/
structure ImageFile where
  path : String
  mtime : Int
  deriving Repr, DecidableEq

/-- Embeds `Path::file_name().and_then(|s| s.to_str()).unwrap_or("")` for
ordinary slash-separated paths: the characters after the last `/`. -/
def file_basename (p : String) : String :=
  String.mk ((p.data.reverse.takeWhile (fun c => c ≠ '/')).reverse)

/-- Embeds the `available_images` filter of `main`: drop every image whose
basename is contained in the recent-wallpaper history set. -/
def availableImages (all_images : List ImageFile) (recent : List String) :
    List ImageFile :=
  all_images.filter (fun img => !(recent.contains (file_basename img.path)))

/-- Embeds `images_to_process` of `main`: the history-filtered pool, reset to
the full pool when the filtered pool is empty. -/
def imagesToProcess (all_images : List ImageFile) (recent : List String) :
    List ImageFile :=
  let available := availableImages all_images recent
  if available.isEmpty then all_images else available

/-! ## Hour parsing (src/exif.rs `parse_hour_from_datetime`,
src/main.rs `extract_hour_from_exif`)

Rust strings are indexed by bytes, and `&s[11..13]` panics when 11 or 13 is
not a character boundary; so the datetime string is embedded as its list of
UTF-8 bytes and the result carries an outer `Option` where `none` models a
panic. -/

/-- Embeds `str::is_char_boundary`: true at 0 and at the end of the string,
and at any byte that is not a UTF-8 continuation byte (`(b as i8) >= -0x40`,
i.e. `b < 0x80 ∨ 0xC0 ≤ b`). -/
def isCharBoundary (s : List Nat) (i : Nat) : Bool :=
  if i = 0 then true
  else
    match s[i]? with
    | none => i = s.length
    | some b => b < 128 || 192 ≤ b

/-- Embeds `str::parse::<u8>` on a byte slice: an optional leading `+`
followed by at least one ASCII digit, value at most 255. -/
def parse_u8 (s : List Nat) : Option Nat :=
  let digits := if s.head? = some 43 then s.tail else s
  if digits.isEmpty then none
  else if digits.all (fun b => 48 ≤ b && b ≤ 57) then
    let v := digits.foldl (fun acc b => acc * 10 + (b - 48)) 0
    if v ≤ 255 then some v else none
  else none

/-- Embeds `parse_hour_from_datetime` of src/exif.rs (the same code is
inlined in `extract_hour_from_exif` of src/main.rs):
if the string has at least 13 bytes, slice bytes 11..13, parse as `u8`, and
return it when at most 23; otherwise `None`. The outer `Option` is `none`
exactly when the byte slice `&datetime[11..13]` would panic, i.e. when byte
position 11 or 13 is not a character boundary. -/
def parse_hour_from_datetime (datetime : List Nat) : Option (Option Nat) :=
  if 13 ≤ datetime.length then
    if isCharBoundary datetime 11 && isCharBoundary datetime 13 then
      let hour_str := (datetime.drop 11).take 2
      match parse_u8 hour_str with
      | some hour => if hour ≤ 23 then some (some hour) else some none
      | none => some none
    else none
  else some none

/-- Spec-side: an ASCII digit byte. -/
def isDigitByte (b : Nat) : Bool :=
  48 ≤ b && b ≤ 57

/-- Spec-side: the byte string is `YYYY:MM:DD HH:MM:SS`-shaped — 19 bytes,
digits in the numeric positions, `:` (58) and space (32) separators. -/
def datetimeShaped (s : List Nat) : Bool :=
  match s with
  | [y1, y2, y3, y4, c1, mo1, mo2, c2, d1, d2, sp, h1, h2, c3, mi1, mi2, c4, se1, se2] =>
    isDigitByte y1 && isDigitByte y2 && isDigitByte y3 && isDigitByte y4 && c1 = 58 &&
    isDigitByte mo1 && isDigitByte mo2 && c2 = 58 && isDigitByte d1 && isDigitByte d2 &&
    sp = 32 && isDigitByte h1 && isDigitByte h2 && c3 = 58 && isDigitByte mi1 &&
    isDigitByte mi2 && c4 = 58 && isDigitByte se1 && isDigitByte se2
  | _ => false

/-- Spec-side: the numeric value of the two-digit hour field (bytes 11 and
12) of a datetime byte string. -/
def hourField (s : List Nat) : Nat :=
  10 * (s.getD 11 0 - 48) + (s.getD 12 0 - 48)

/-- The value of an EXIF entry, as far as hour extraction looks at it:
either an ASCII string tag value (given by its UTF-8 bytes) or anything
else. -/
inductive TagValue where
  | ascii (s : List Nat)
  | other
  deriving Repr, DecidableEq

/-- An EXIF entry as seen by `extract_hour_from_exif`: whether its tag is
`DateTimeOriginal`, and its value. -/
structure ExifEntry where
  isDateTimeOriginal : Bool
  value : TagValue
  deriving Repr, DecidableEq

/-- Embeds the loop of `extract_hour_from_exif` in src/main.rs: scan the
entries; on each `DateTimeOriginal` ASCII entry run the inline hour parse
and return the hour on success, otherwise keep scanning; `None` when the
scan finds nothing. The outer `Option` is `none` when the inline byte slice
panics. (The `rexif::parse_file(path).ok()?` failure case is the `[]`
entry list.) -/
def extract_hour_from_exif : List ExifEntry → Option (Option Nat)
  | [] => some none
  | e :: rest =>
    if e.isDateTimeOriginal then
      match e.value with
      | TagValue.ascii s =>
        match parse_hour_from_datetime s with
        | none => none
        | some (some hour) => some (some hour)
        | some none => extract_hour_from_exif rest
      | TagValue.other => extract_hour_from_exif rest
    else extract_hour_from_exif rest

/-! ## Kitty graphics chunking
(src/bin/wallpaper_info/display.rs and main.rs, `display_kitty_image`) -/

/-- Embeds the `while chars.peek().is_some()` loop of `display_kitty_image`:
take the next 4096 characters as a chunk, flag it 1 when characters remain
and 0 otherwise. Returns the `(more_flag, chunk)` pairs in emission order. -/
def chunkLoop (s : List Char) : List (Nat × List Char) :=
  if h : s.isEmpty then []
  else
    ((if (s.drop 4096).isEmpty then 0 else 1), s.take 4096) :: chunkLoop (s.drop 4096)
termination_by s.length
decreasing_by
  have hne : s ≠ [] := fun hs => by simp [hs] at h
  have hl : 0 < s.length := List.length_pos.mpr hne
  simp only [List.length_drop]
  omega

/-- Embeds the chunk emission of `display_kitty_image`: the first chunk is
emitted unconditionally (flag 1 iff characters remain), then the loop emits
the rest. Returns every emitted `(more_flag, chunk)` pair in order. -/
def display_kitty_chunks (encoded : List Char) : List (Nat × List Char) :=
  let first := encoded.take 4096
  let rest := encoded.drop 4096
  let more : Nat := if rest.isEmpty then 0 else 1
  (more, first) :: chunkLoop rest

/-! ## Metadata cache (src/cache.rs)

The SQLite table `exif_cache (path TEXT PRIMARY KEY, mtime INTEGER NOT
NULL, hour INTEGER)` is embedded as a list of rows; `path` is the primary
key. `INSERT OR REPLACE` replaces the row with the same key when present. -/

/-- One row of the `exif_cache` table. -/
structure CacheRow where
  path : String
  mtime : Int
  hour : Option Nat
  deriving Repr, DecidableEq

/-- The in-memory value stored per path by `load_all`
(the `CachedEntry` struct of src/cache.rs). -/
structure CachedEntry where
  mtime : Int
  hour : Option Nat
  deriving Repr, DecidableEq

/-- Embeds one `INSERT OR REPLACE INTO exif_cache` statement: replace the
row with the same path if present, else append the new row. -/
def upsertOne (db : List CacheRow) (row : CacheRow) : List CacheRow :=
  if db.any (fun r => r.path == row.path) then
    db.map (fun r => if r.path == row.path then row else r)
  else db ++ [row]

/-- Embeds `cache::insert` of src/cache.rs: execute one `INSERT OR REPLACE`
per entry, inside a single transaction (all-or-nothing; the success path is
the sequential composition embedded here). -/
def cache_insert (db : List CacheRow) (entries : List CacheRow) : List CacheRow :=
  entries.foldl upsertOne db

/-- Embeds `cache::load_all` of src/cache.rs, viewed as the lookup function
of the `HashMap<String, CachedEntry>` it builds: the entry stored under a
path (first row with that path; the primary key makes paths unique). -/
def cache_load_all (db : List CacheRow) (path : String) : Option CachedEntry :=
  (db.find? (fun r => r.path == path)).map (fun r => ⟨r.mtime, r.hour⟩)

/-- Embeds `cache::cleanup_stale` of src/cache.rs: compute the stale paths
(keys of the in-memory cache snapshot not contained in `current_paths`),
return unchanged when there are none, else delete every row with a stale
path, inside a single transaction. -/
def cleanup_stale (db : List CacheRow) (current_paths : List String)
    (cache : List CacheRow) : List CacheRow :=
  let stale_paths := (cache.map (fun r => r.path)).filter
    (fun p => !current_paths.contains p)
  if stale_paths.isEmpty then db
  else db.filter (fun r => !stale_paths.contains r.path)

/-! ## Cached candidate computation and its failure fallback
(src/main.rs, `get_candidates_with_cache` lines 163–232 and the fallback in
`main` lines 78–91)

The cache store failure modes (open, load, insert-transaction,
cleanup-transaction) are externalized as boolean fault flags; a failing
transaction leaves the table unchanged (SQLite rolls it back), which the
embedding reflects by returning the error before the table is touched. The
per-path EXIF extraction result of the run is externalized as the function
`exifHour`. -/

/-- The injected cache environment: the table contents and which cache
operations fail during the run. -/
structure CacheEnv where
  openFails : Bool
  loadFails : Bool
  insertFails : Bool
  cleanupFails : Bool
  db : List CacheRow

/-- Embeds `insert_cache_entries` with an injected transaction fault: the
transaction either lands whole (the pure `cache_insert`) or fails having
changed nothing (SQLite rolls a failed transaction back). -/
def cache_insert_tx (fails : Bool) (db : List CacheRow) (entries : List CacheRow) :
    Except Unit (List CacheRow) :=
  if fails then Except.error () else Except.ok (cache_insert db entries)

/-- Embeds `cleanup_stale` with an injected transaction fault: when there
are no stale paths it returns before opening a transaction (so it cannot
fail); otherwise the transaction lands whole or fails having changed
nothing. -/
def cleanup_stale_tx (fails : Bool) (db : List CacheRow) (current_paths : List String)
    (cache : List CacheRow) : Except Unit (List CacheRow) :=
  let stale_paths := (cache.map (fun r => r.path)).filter
    (fun p => !current_paths.contains p)
  if stale_paths.isEmpty then Except.ok db
  else if fails then Except.error ()
  else Except.ok (db.filter (fun r => !stale_paths.contains r.path))

/-- Embeds `get_candidates_with_cache` of src/main.rs: open and load the
cache, determine the files to parse (missing from the cache or with a
changed mtime), extract their hours, insert the new entries (when any),
clean up stale entries, and join each image to process with its hour
(preferring the hour parsed this run, falling back to the cached hour).
Returns the candidate list and the final table; `Except.error` on any
failing cache operation (the `?` operator in the source). -/
def get_candidates_with_cache (env : CacheEnv) (exifHour : String → Option Nat)
    (images_to_process all_images : List ImageFile) :
    Except Unit (List ImageCandidate × List CacheRow) :=
  if env.openFails then Except.error () else
  if env.loadFails then Except.error () else
  let cache := env.db
  let current_paths := all_images.map (fun i => i.path)
  let files_to_parse := all_images.filter (fun i =>
    match cache_load_all cache i.path with
    | some entry => entry.mtime != i.mtime
    | none => true)
  let new_entries := files_to_parse.map (fun i =>
    (⟨i.path, i.mtime, exifHour i.path⟩ : CacheRow))
  match (if new_entries.isEmpty then Except.ok env.db
         else cache_insert_tx env.insertFails env.db new_entries) with
  | Except.error e => Except.error e
  | Except.ok db1 =>
    match cleanup_stale_tx env.cleanupFails db1 current_paths cache with
    | Except.error e => Except.error e
    | Except.ok db2 =>
      let candidates := images_to_process.map (fun i =>
        let hour := (((new_entries.find? (fun r => r.path == i.path)).map
            (fun r => r.hour)).join).or
          ((cache_load_all cache i.path).bind (fun e => e.hour))
        (⟨i.path, hour⟩ : ImageCandidate))
      Except.ok (candidates, db2)

/-- Embeds the candidate computation of `main` (src/main.rs lines 78–91):
use the cached computation when it succeeds, else fall back to direct EXIF
extraction over every image to process. -/
def mainCandidates (env : CacheEnv) (exifHour : String → Option Nat)
    (images_to_process all_images : List ImageFile) : List ImageCandidate :=
  match get_candidates_with_cache env exifHour images_to_process all_images with
  | Except.ok (c, _) => c
  | Except.error _ =>
    images_to_process.map (fun i => ⟨i.path, exifHour i.path⟩)

/-! ## Color palette extraction (src/bin/wallpaper_info/color.rs)

The decoded-and-downscaled image is embedded as its list of RGB pixels
(the `resize(64, 64, Nearest)` step is the external image library; a
nearest-neighbor downscale of an all-black image is all black). `f64`
arithmetic is embedded over `ℚ`; `as u8` casts of nonnegative values
truncate, i.e. take the floor. -/

/-- The `Rgb` struct of color.rs (channels are `u8`). -/
structure Rgb where
  r : Nat
  g : Nat
  b : Nat
  deriving Repr, DecidableEq

/-- Embeds `Rgb::luminance`:
`0.299*r/255 + 0.587*g/255 + 0.114*b/255`. -/
def Rgb.luminance (c : Rgb) : ℚ :=
  (299 * c.r + 587 * c.g + 114 * c.b : ℚ) / 255000

/-- Embeds `Rgb::saturation`: `(max-min)/max`, and 0 when `max` is 0. -/
def Rgb.saturation (c : Rgb) : ℚ :=
  let maxc : ℚ := max c.r (max c.g c.b)
  let minc : ℚ := min c.r (min c.g c.b)
  if maxc = 0 then 0 else (maxc - minc) / maxc

/-- Embeds `Rgb::lighten`: each channel moves toward 255 by `factor`,
truncated back to an integer channel. -/
def Rgb.lighten (c : Rgb) (factor : ℚ) : Rgb :=
  ⟨(Int.toNat ⌊(c.r : ℚ) + (255 - (c.r : ℚ)) * factor⌋),
   (Int.toNat ⌊(c.g : ℚ) + (255 - (c.g : ℚ)) * factor⌋),
   (Int.toNat ⌊(c.b : ℚ) + (255 - (c.b : ℚ)) * factor⌋)⟩

/-- Embeds `Rgb::darken`: each channel scaled by `1 - factor`, truncated. -/
def Rgb.darken (c : Rgb) (factor : ℚ) : Rgb :=
  ⟨(Int.toNat ⌊(c.r : ℚ) * (1 - factor)⌋),
   (Int.toNat ⌊(c.g : ℚ) * (1 - factor)⌋),
   (Int.toNat ⌊(c.b : ℚ) * (1 - factor)⌋)⟩

/-- Embeds `Rgb::muted` (integer arithmetic in the source). -/
def Rgb.muted (c : Rgb) : Rgb :=
  let gray := (c.r + c.g + c.b) / 3
  ⟨(c.r + gray) / 2, (c.g + gray) / 2, (c.b + gray) / 2⟩

/-- The `ColorPalette` struct of color.rs. -/
structure ColorPalette where
  accent : Rgb
  secondary : Rgb
  background : Rgb
  text : Rgb
  dim : Rgb
  deriving Repr, DecidableEq

/-- Embeds the quantization of `extract_palette`:
`pixel / 16 * 16` per channel. -/
def quantize (p : Rgb) : Rgb :=
  ⟨p.r / 16 * 16, p.g / 16 * 16, p.b / 16 * 16⟩

/-- Embeds the `color_counts` HashMap build of `extract_palette` as an
association list keyed by quantized color, in first-occurrence order (the
HashMap iteration order is unspecified in Rust; for inputs where it matters
only through the ties of the subsequent stable sort, this is one admissible
order). -/
def countColors : List Rgb → List (Rgb × Nat) → List (Rgb × Nat)
  | [], acc => acc
  | p :: rest, acc =>
    let key := quantize p
    if acc.any (fun e => e.1 == key) then
      countColors rest (acc.map (fun e => if e.1 == key then (e.1, e.2 + 1) else e))
    else
      countColors rest (acc ++ [(key, 1)])

/-- Embeds the stable `sort_by(|a, b| b.1.cmp(&a.1))` (descending count):
stable insertion sort, inserting each element after the existing elements
with a count at least as large. -/
def insertByCount (e : Rgb × Nat) : List (Rgb × Nat) → List (Rgb × Nat)
  | [] => [e]
  | x :: rest => if x.2 < e.2 then e :: x :: rest else x :: insertByCount e rest

/-- Descending-count stable sort of the color counts. -/
def sortByCountDesc (l : List (Rgb × Nat)) : List (Rgb × Nat) :=
  l.foldr insertByCount []

/-- The squared score used to compare accent candidates: the source
compares `saturation * sqrt(count)`; both are nonnegative, so comparing
the squares `saturation^2 * count` is equivalent and keeps the embedding
rational. -/
def sqScore (e : Rgb × Nat) : ℚ :=
  (Rgb.saturation e.1) ^ 2 * e.2

/-- Embeds `Iterator::max_by` with the score comparison: the last element
of maximal score wins (as documented for `max_by`), `none` on an empty
list. -/
def maxByScore (l : List (Rgb × Nat)) : Option (Rgb × Nat) :=
  l.foldl (fun acc x =>
    match acc with
    | none => some x
    | some a => if sqScore a ≤ sqScore x then some x else some a) none

/-- Embeds `extract_palette` of color.rs, starting from the pixels of the
downscaled image: quantize and count, sort by descending count, pick the
accent (top 20, luminance strictly between 0.15 and 0.85, maximal score,
warm-orange fallback), the secondary (first top-20 color Manhattan-far from
the accent with enough saturation and luminance, accent fallback), the
background (first color with luminance below 0.3, darkened, near-black
fallback), then post-correct accent and secondary and attach the fixed text
and dim colors. -/
def extract_palette (pixels : List Rgb) : ColorPalette :=
  let colors := sortByCountDesc (countColors pixels [])
  let accent :=
    ((maxByScore ((colors.take 20).filter (fun e =>
        (15 : ℚ)/100 < Rgb.luminance e.1 && Rgb.luminance e.1 < (85 : ℚ)/100))).map
      (fun e => e.1)).getD ⟨255, 170, 100⟩
  let secondary :=
    (((colors.take 20).filter (fun e =>
        let rgb := e.1
        let diff := (accent.r - rgb.r : Int).natAbs + (accent.g - rgb.g : Int).natAbs
          + (accent.b - rgb.b : Int).natAbs
        100 < diff && (2 : ℚ)/10 < Rgb.saturation rgb
          && (15 : ℚ)/100 < Rgb.luminance rgb)).head?.map
      (fun e => e.1)).getD accent
  let background :=
    ((colors.find? (fun e => Rgb.luminance e.1 < (3 : ℚ)/10)).map
      (fun e => Rgb.darken e.1 ((6 : ℚ)/10))).getD ⟨15, 20, 30⟩
  { accent := if Rgb.luminance accent < (3 : ℚ)/10 then Rgb.lighten accent ((4 : ℚ)/10) else accent
    secondary := if Rgb.luminance secondary < (3 : ℚ)/10 then Rgb.lighten secondary ((3 : ℚ)/10)
      else Rgb.muted secondary
    background := background
    text := ⟨230, 235, 240⟩
    dim := ⟨140, 145, 155⟩ }

/-! ## Viewer history navigation (src/history.rs, `WallpaperHistory`) -/

/-- The `WallpaperHistory` struct of src/history.rs. -/
structure WallpaperHistory where
  entries : List String
  current_index : Nat
  deriving Repr, DecidableEq

namespace WallpaperHistory

/-- Embeds `WallpaperHistory::load`: the file is externalized as
`none` (unopenable/missing) or `some lines`; an empty line list yields
`none`, otherwise the history starts at the last entry. -/
def load (file : Option (List String)) : Option WallpaperHistory :=
  match file with
  | none => none
  | some entries =>
    if entries.isEmpty then none
    else some ⟨entries, entries.length - 1⟩

/-- Embeds `WallpaperHistory::current_basename`; the Rust indexing
`&self.entries[self.current_index]` panics out of bounds, modelled by the
`Option`. -/
def current_basename (h : WallpaperHistory) : Option String :=
  h.entries[h.current_index]?

/-- Embeds `WallpaperHistory::go_previous` (state passed explicitly). -/
def go_previous (h : WallpaperHistory) : WallpaperHistory × Bool :=
  if 0 < h.current_index then
    ({ h with current_index := h.current_index - 1 }, true)
  else (h, false)

/-- Embeds `WallpaperHistory::go_next` (state passed explicitly). -/
def go_next (h : WallpaperHistory) : WallpaperHistory × Bool :=
  if h.current_index < h.entries.length - 1 then
    ({ h with current_index := h.current_index + 1 }, true)
  else (h, false)

/-- Embeds `WallpaperHistory::position_str`. -/
def position_str (h : WallpaperHistory) : String :=
  toString (h.current_index + 1) ++ "/" ++ toString h.entries.length

/-- The invariant claimed for `WallpaperHistory`: a non-empty entry list
and an in-bounds current index. -/
def Inv (h : WallpaperHistory) : Prop :=
  h.entries ≠ [] ∧ h.current_index < h.entries.length

instance (h : WallpaperHistory) : Decidable (Inv h) := by
  unfold Inv; infer_instance

end WallpaperHistory

/-! # Theorems -/

/-- **C2**: for all hour pairs `(a,b)` in `[0,23]`, `calculate_time_diff`
is symmetric (`d(a,b) = d(b,a)`) and bounded in `[0,12]`, and the specific
values `d(5,23) = 6`, `d(0,23) = 1`, `d(12,0) = 12` hold. -/
theorem calculate_time_diff_symm_bounded (a b : Int)
    (ha0 : 0 ≤ a) (ha : a ≤ 23) (hb0 : 0 ≤ b) (hb : b ≤ 23) :
    calculate_time_diff a b = calculate_time_diff b a ∧
    0 ≤ calculate_time_diff a b ∧ calculate_time_diff a b ≤ 12 ∧
    calculate_time_diff 5 23 = 6 ∧ calculate_time_diff 0 23 = 1 ∧
    calculate_time_diff 12 0 = 12 := by
  refine ⟨?_, ?_, ?_, by decide, by decide, by decide⟩ <;>
    · simp only [calculate_time_diff]
      rw [Int.tmod_eq_emod (by omega) (by norm_num)]
      try rw [Int.tmod_eq_emod (by omega) (by norm_num)]
      split <;> try split
      all_goals omega

/-- Witness for C2 at the concrete pair `(5, 23)`. -/
theorem calculate_time_diff_symm_bounded_witness :
    (0 : Int) ≤ 5 ∧ (5 : Int) ≤ 23 ∧ (0 : Int) ≤ 23 ∧ (23 : Int) ≤ 23 ∧
    (calculate_time_diff 5 23 = calculate_time_diff 23 5 ∧
      0 ≤ calculate_time_diff 5 23 ∧ calculate_time_diff 5 23 ≤ 12 ∧
      calculate_time_diff 5 23 = 6 ∧ calculate_time_diff 0 23 = 1 ∧
      calculate_time_diff 12 0 = 12) :=
  ⟨by norm_num, by norm_num, by norm_num, by norm_num,
    calculate_time_diff_symm_bounded 5 23 (by norm_num) (by norm_num)
      (by norm_num) (by norm_num)⟩

/-- **C3**: the set of images processed for selection is the pool minus
the images whose basename is in the history; when that filtered set is
empty the processed set resets to the full pool (in particular whenever the
history covers every basename of the pool), and it is never empty for a
non-empty pool. -/
theorem imagesToProcess_spec (all : List ImageFile) (recent : List String) :
    (¬(all.filter (fun img => !(recent.contains (file_basename img.path)))).isEmpty = true →
      imagesToProcess all recent =
        all.filter (fun img => !(recent.contains (file_basename img.path)))) ∧
    ((all.filter (fun img => !(recent.contains (file_basename img.path)))).isEmpty = true →
      imagesToProcess all recent = all) ∧
    ((∀ img ∈ all, recent.contains (file_basename img.path)) →
      imagesToProcess all recent = all) ∧
    (all ≠ [] → imagesToProcess all recent ≠ []) := by
  refine ⟨?_, ?_, ?_, ?_⟩
  · intro h
    simp only [imagesToProcess, availableImages]
    rw [if_neg h]
  · intro h
    simp only [imagesToProcess, availableImages]
    rw [if_pos h]
  · intro h
    simp only [imagesToProcess, availableImages]
    rw [if_pos]
    simp only [List.isEmpty_iff, List.filter_eq_nil_iff]
    intro a ha
    simpa using h a ha
  · intro h
    simp only [imagesToProcess, availableImages]
    split
    · exact h
    · rename_i hne
      simp only [List.isEmpty_iff] at hne
      exact hne

/-- Witness for C3: a two-image pool with one basename in the history keeps
exactly the other image; the same pool with both basenames in the history
resets to the full pool. -/
theorem imagesToProcess_spec_witness :
    imagesToProcess [⟨"/w/a.jpg", 1⟩, ⟨"/w/b.jpg", 2⟩] ["b.jpg"] = [⟨"/w/a.jpg", 1⟩] ∧
    imagesToProcess [⟨"/w/a.jpg", 1⟩, ⟨"/w/b.jpg", 2⟩] ["a.jpg", "b.jpg"] =
      [⟨"/w/a.jpg", 1⟩, ⟨"/w/b.jpg", 2⟩] :=
  ⟨((imagesToProcess_spec [⟨"/w/a.jpg", 1⟩, ⟨"/w/b.jpg", 2⟩] ["b.jpg"]).1
      (by decide)).trans (by decide),
    (imagesToProcess_spec [⟨"/w/a.jpg", 1⟩, ⟨"/w/b.jpg", 2⟩] ["a.jpg", "b.jpg"]).2.1
      (by decide)⟩

/-- **C10**: `WallpaperHistory` maintains the invariant that `entries` is
non-empty and `current_index` is in bounds: `load` returns `none` for a
missing or empty history file and otherwise starts at the most recent
entry; `go_previous` and `go_next` preserve the invariant, each returning
`false` exactly at its boundary and leaving the state unchanged there; and
under the invariant `current_basename` and `position_str` address a valid
entry. -/
theorem wallpaper_history_invariant :
    (WallpaperHistory.load none = none) ∧
    (WallpaperHistory.load (some []) = none) ∧
    (∀ file h, WallpaperHistory.load file = some h →
      h.Inv ∧ h.current_index = h.entries.length - 1) ∧
    (∀ h : WallpaperHistory, h.Inv →
      (h.go_previous.1.Inv ∧ (h.go_previous.2 = false ↔ h.current_index = 0) ∧
        (h.go_previous.2 = false → h.go_previous.1 = h)) ∧
      (h.go_next.1.Inv ∧ (h.go_next.2 = false ↔ h.current_index = h.entries.length - 1) ∧
        (h.go_next.2 = false → h.go_next.1 = h)) ∧
      h.current_basename.isSome = true ∧ h.current_index + 1 ≤ h.entries.length) := by
  refine ⟨rfl, rfl, ?_, ?_⟩
  · intro file h hload
    match file with
    | none => simp [WallpaperHistory.load] at hload
    | some entries =>
      simp only [WallpaperHistory.load] at hload
      by_cases he : entries.isEmpty
      · rw [if_pos he] at hload; exact absurd hload (by simp)
      · rw [if_neg he] at hload
        obtain rfl : (⟨entries, entries.length - 1⟩ : WallpaperHistory) = h := by
          simpa using hload
        simp only [List.isEmpty_iff] at he
        have hpos : 0 < entries.length := List.length_pos.mpr he
        exact ⟨⟨he, by dsimp only; omega⟩, rfl⟩
  · intro h ⟨hne, hlt⟩
    have hpos : 0 < h.entries.length := List.length_pos.mpr hne
    refine ⟨?_, ?_, ?_, ?_⟩
    · simp only [WallpaperHistory.go_previous, WallpaperHistory.Inv]
      split <;> simp_all <;> omega
    · simp only [WallpaperHistory.go_next, WallpaperHistory.Inv]
      split <;> simp_all <;> omega
    · simp [WallpaperHistory.current_basename, List.getElem?_eq_getElem hlt]
    · omega

/-- Witness for C10 at a concrete two-entry history positioned at its last
entry. -/
theorem wallpaper_history_invariant_witness :
    WallpaperHistory.Inv ⟨["a", "b"], 1⟩ ∧
    ((⟨["a", "b"], 1⟩ : WallpaperHistory).go_next.2 = false ∧
      (⟨["a", "b"], 1⟩ : WallpaperHistory).current_basename.isSome = true) :=
  ⟨by decide,
    ⟨((wallpaper_history_invariant.2.2.2 ⟨["a", "b"], 1⟩ (by decide)).2.1.2.1).mpr (by decide),
      (wallpaper_history_invariant.2.2.2 ⟨["a", "b"], 1⟩ (by decide)).2.2.1⟩⟩



/-- **C7**: pruning deletes exactly the cache rows whose path is not in
`current_paths` (with the snapshot taken from the same table): afterwards
the cache domain is contained in `current_paths`, every row whose path is
in `current_paths` survives unchanged, and nothing else appears. -/
theorem cleanup_stale_spec (db : List CacheRow) (current : List String) :
    cleanup_stale db current db = db.filter (fun r => current.contains r.path) ∧
    (∀ r ∈ cleanup_stale db current db, r.path ∈ current) ∧
    (∀ r ∈ db, r.path ∈ current → r ∈ cleanup_stale db current db) ∧
    (∀ r ∈ cleanup_stale db current db, r ∈ db) := by
  have hmain : cleanup_stale db current db = db.filter (fun r => current.contains r.path) := by
    simp only [cleanup_stale]
    split
    · rename_i hempty
      simp only [List.isEmpty_iff, List.filter_eq_nil_iff, List.mem_map,
        Bool.not_eq_true', not_exists] at hempty
      symm
      rw [List.filter_eq_self]
      intro r hr
      have := hempty (r.path)
      by_contra hc
      simp only [Bool.not_eq_true] at hc
      exact absurd hc (by
        have := hempty r.path ⟨r, hr, rfl⟩
        simp_all)
    · apply List.filter_congr
      intro r hr
      have hmem : r.path ∈ db.map (fun r => r.path) := List.mem_map.mpr ⟨r, hr, rfl⟩
      by_cases hcur : current.contains r.path
      · simp [hcur, List.mem_filter]
        intro hall
        simpa using hcur
      · simp only [Bool.not_eq_true] at hcur
        simp [hcur, List.mem_filter, hmem]
  refine ⟨hmain, ?_, ?_, ?_⟩
  · intro r hr
    rw [hmain] at hr
    have := (List.mem_filter.mp hr).2
    simpa using this
  · intro r hr hcur
    rw [hmain]
    exact List.mem_filter.mpr ⟨hr, by simpa using hcur⟩
  · intro r hr
    rw [hmain] at hr
    exact (List.mem_filter.mp hr).1

/-- Witness for C7: a cache with paths `{A,B,C}` pruned against `{A,C}`
contains exactly the `A` and `C` rows. -/
theorem cleanup_stale_spec_witness :
    cleanup_stale
        [⟨"A", 1, some 1⟩, ⟨"B", 2, none⟩, ⟨"C", 3, some 3⟩] ["A", "C"]
        [⟨"A", 1, some 1⟩, ⟨"B", 2, none⟩, ⟨"C", 3, some 3⟩] =
      [⟨"A", 1, some 1⟩, ⟨"C", 3, some 3⟩] ∧
    (⟨"A", 1, some 1⟩ : CacheRow) ∈ cleanup_stale
        [⟨"A", 1, some 1⟩, ⟨"B", 2, none⟩, ⟨"C", 3, some 3⟩] ["A", "C"]
        [⟨"A", 1, some 1⟩, ⟨"B", 2, none⟩, ⟨"C", 3, some 3⟩] :=
  ⟨((cleanup_stale_spec [⟨"A", 1, some 1⟩, ⟨"B", 2, none⟩, ⟨"C", 3, some 3⟩]
      ["A", "C"]).1).trans (by decide),
    (cleanup_stale_spec [⟨"A", 1, some 1⟩, ⟨"B", 2, none⟩, ⟨"C", 3, some 3⟩]
      ["A", "C"]).2.2.1 ⟨"A", 1, some 1⟩ (by decide) (by decide)⟩


/-- The chunk loop emits nothing for an exhausted iterator. -/
theorem chunkLoop_nil : chunkLoop [] = [] := by
  rw [chunkLoop]
  rfl

/-- Unfolding of `chunkLoop` on a non-empty remainder. -/
theorem chunkLoop_cons (s : List Char) (h : ¬s.isEmpty = true) :
    chunkLoop s =
      ((if (s.drop 4096).isEmpty then 0 else 1), s.take 4096) :: chunkLoop (s.drop 4096) := by
  rw [chunkLoop]
  rw [dif_neg h]

/-- The chunk loop emits no chunk exactly for an empty remainder. -/
theorem chunkLoop_eq_nil_iff (s : List Char) : chunkLoop s = [] ↔ s = [] := by
  by_cases he : s.isEmpty
  · obtain rfl : s = [] := List.isEmpty_iff.mp he
    simp [chunkLoop_nil]
  · rw [chunkLoop_cons s he]
    constructor
    · intro h; exact absurd h (by simp)
    · intro h; exact absurd (List.isEmpty_iff.mpr h) he

/-- The chunk loop reassembles to its input, every chunk fits in 4096
characters, every chunk but the last is exactly 4096 characters and is
flagged 1, and the last is flagged 0. -/
theorem chunkLoop_spec : ∀ (n : Nat) (s : List Char), s.length ≤ n →
    (((chunkLoop s).map Prod.snd).flatten = s) ∧
    (∀ i (hi : i < (chunkLoop s).length),
      (chunkLoop s)[i].2.length ≤ 4096 ∧
      (i + 1 < (chunkLoop s).length →
        (chunkLoop s)[i].1 = 1 ∧ (chunkLoop s)[i].2.length = 4096) ∧
      (i + 1 = (chunkLoop s).length → (chunkLoop s)[i].1 = 0)) := by
  intro n
  induction n with
  | zero =>
    intro s hs
    have : s = [] := List.length_eq_zero.mp (Nat.le_zero.mp hs)
    subst this
    simp [chunkLoop_nil]
  | succ n ih =>
    intro s hs
    by_cases he : s.isEmpty
    · obtain rfl : s = [] := List.isEmpty_iff.mp he
      simp [chunkLoop_nil]
    · have hne : s ≠ [] := fun h => he (List.isEmpty_iff.mpr h)
      have hpos : 0 < s.length := List.length_pos.mpr hne
      have hdrop : (s.drop 4096).length ≤ n := by
        simp only [List.length_drop]; omega
      obtain ⟨ihjoin, ihidx⟩ := ih (s.drop 4096) hdrop
      rw [chunkLoop_cons s he]
      constructor
      · simp only [List.map_cons, List.flatten_cons]
        rw [ihjoin]
        exact List.take_append_drop 4096 s
      · intro i hi
        cases i with
        | zero =>
          simp only [List.getElem_cons_zero]
          refine ⟨by simp only [List.length_take]; omega, ?_, ?_⟩
          · intro h1
            have hrest : chunkLoop (s.drop 4096) ≠ [] := by
              simp only [List.length_cons] at h1
              intro hc
              rw [hc] at h1
              simp at h1
            have hdne : s.drop 4096 ≠ [] := by
              intro hc
              exact hrest (by rw [hc, chunkLoop_nil])
            have hdempty : (s.drop 4096).isEmpty = false := by
              simp [List.isEmpty_iff, hdne]
            have hlong : 4096 ≤ s.length := by
              by_contra hc
              exact hdne (List.drop_eq_nil_of_le (by omega))
            simp [hdempty, List.length_take, hlong]
          · intro h1
            simp only [List.length_cons] at h1
            have hrest : chunkLoop (s.drop 4096) = [] :=
              List.length_eq_zero.mp (by omega)
            have hdnil : s.drop 4096 = [] := (chunkLoop_eq_nil_iff _).mp hrest
            simp [hdnil]
        | succ j =>
          simp only [List.length_cons] at hi
          have hj : j < (chunkLoop (s.drop 4096)).length := by omega
          obtain ⟨ha, hb, hc⟩ := ihidx j hj
          simp only [List.getElem_cons_succ, List.length_cons]
          exact ⟨ha, fun h => hb (by omega), fun h => hc (by omega)⟩

/-- **C5**: the renderer splits the base64 payload into consecutive chunks
of 4096 characters (the last possibly shorter), each chunk carried in its
own escape sequence with more-chunks flag 1 on every chunk except the last,
which carries 0; a payload of exactly 8192 characters is emitted as exactly
two chunks, the first flagged 1 and the second flagged 0. -/
theorem display_kitty_chunks_spec (encoded : List Char) :
    display_kitty_chunks encoded ≠ [] ∧
    ((display_kitty_chunks encoded).map Prod.snd).flatten = encoded ∧
    (∀ i (hi : i < (display_kitty_chunks encoded).length),
      (display_kitty_chunks encoded)[i].2.length ≤ 4096 ∧
      (i + 1 < (display_kitty_chunks encoded).length →
        (display_kitty_chunks encoded)[i].1 = 1 ∧
        (display_kitty_chunks encoded)[i].2.length = 4096) ∧
      (i + 1 = (display_kitty_chunks encoded).length →
        (display_kitty_chunks encoded)[i].1 = 0)) ∧
    (encoded.length = 8192 →
      display_kitty_chunks encoded = [(1, encoded.take 4096), (0, encoded.drop 4096)]) := by
  obtain ⟨hjoin, hidx⟩ :=
    chunkLoop_spec (encoded.drop 4096).length (encoded.drop 4096) le_rfl
  simp only [display_kitty_chunks]
  refine ⟨by simp, ?_, ?_, ?_⟩
  · simp only [List.map_cons, List.flatten_cons]
    rw [hjoin]
    exact List.take_append_drop 4096 encoded
  · intro i hi
    cases i with
    | zero =>
      simp only [List.getElem_cons_zero]
      refine ⟨by simp only [List.length_take]; omega, ?_, ?_⟩
      · intro h1
        have hrest : chunkLoop (encoded.drop 4096) ≠ [] := by
          simp only [List.length_cons] at h1
          intro hc
          rw [hc] at h1
          simp at h1
        have hdne : encoded.drop 4096 ≠ [] := by
          intro hc
          exact hrest (by rw [hc, chunkLoop_nil])
        have hdempty : (encoded.drop 4096).isEmpty = false := by
          simp [List.isEmpty_iff, hdne]
        have hlong : 4096 ≤ encoded.length := by
          by_contra hc
          exact hdne (List.drop_eq_nil_of_le (by omega))
        simp [hdempty, List.length_take, hlong]
      · intro h1
        simp only [List.length_cons] at h1
        have hrest : chunkLoop (encoded.drop 4096) = [] :=
          List.length_eq_zero.mp (by omega)
        have hdnil : encoded.drop 4096 = [] := (chunkLoop_eq_nil_iff _).mp hrest
        simp [hdnil]
    | succ j =>
      simp only [List.length_cons] at hi
      have hj : j < (chunkLoop (encoded.drop 4096)).length := by omega
      obtain ⟨ha, hb, hc⟩ := hidx j hj
      simp only [List.getElem_cons_succ, List.length_cons]
      exact ⟨ha, fun h => hb (by omega), fun h => hc (by omega)⟩
  · intro h8192
    have hl1 : (encoded.drop 4096).length = 4096 := by
      simp [List.length_drop, h8192]
    have hdne : encoded.drop 4096 ≠ [] := by
      intro hc
      rw [hc] at hl1
      simp at hl1
    have hdempty : ¬(encoded.drop 4096).isEmpty = true := by
      simp [List.isEmpty_iff, hdne]
    have hdd : (encoded.drop 4096).drop 4096 = [] :=
      List.drop_eq_nil_of_le (by omega)
    have htake : (encoded.drop 4096).take 4096 = encoded.drop 4096 :=
      List.take_of_length_le (by omega)
    rw [chunkLoop_cons (encoded.drop 4096) hdempty]
    rw [htake, hdd, chunkLoop_nil]
    simp [hdempty, hdd]

/-- Witness for C5 at the concrete 8192-character payload `AAAA...`. -/
theorem display_kitty_chunks_spec_witness :
    display_kitty_chunks (List.replicate 8192 (Char.ofNat 65)) =
      [(1, List.replicate 4096 (Char.ofNat 65)), (0, List.replicate 4096 (Char.ofNat 65))] := by
  have h := (display_kitty_chunks_spec (List.replicate 8192 (Char.ofNat 65))).2.2.2 (List.length_replicate 8192 (Char.ofNat 65))
  rw [h]
  rw [List.take_replicate, List.drop_replicate]
  norm_num


/-- An `INSERT OR REPLACE` of a path not yet in the table appends. -/
theorem upsertOne_of_fresh (db : List CacheRow) (row : CacheRow)
    (h : ∀ q ∈ db, q.path ≠ row.path) : upsertOne db row = db ++ [row] := by
  simp only [upsertOne]
  rw [if_neg]
  simp only [List.any_eq_true, not_exists, not_and]
  intro q hq
  simp [h q hq]

/-- A batch insert of entries with fresh, pairwise-distinct paths appends
the batch. -/
theorem cache_insert_of_fresh :
    ∀ (E : List CacheRow) (db : List CacheRow),
      (∀ r ∈ E, ∀ q ∈ db, q.path ≠ r.path) → (E.map (fun r => r.path)).Nodup →
      cache_insert db E = db ++ E := by
  intro E
  induction E with
  | nil => intro db _ _; simp [cache_insert]
  | cons e rest ih =>
    intro db hdisj hnodup
    simp only [cache_insert, List.foldl_cons]
    rw [show List.foldl upsertOne (upsertOne db e) rest = cache_insert (upsertOne db e) rest
        from rfl]
    rw [upsertOne_of_fresh db e (fun q hq => hdisj e (by simp) q hq)]
    simp only [List.map_cons, List.nodup_cons] at hnodup
    rw [ih (db ++ [e]) ?hd hnodup.2]
    · simp
    · intro r hr q hq
      rcases List.mem_append.mp hq with hq1 | hq2
      · exact hdisj r (by simp [hr]) q hq1
      · obtain rfl : q = e := by simpa using hq2
        intro hc
        exact hnodup.1 (List.mem_map.mpr ⟨r, hr, hc.symm⟩)

/-- Loading a table with distinct paths returns each row under its path. -/
theorem load_all_of_mem :
    ∀ (E : List CacheRow), (E.map (fun r => r.path)).Nodup →
      ∀ r ∈ E, cache_load_all E r.path = some ⟨r.mtime, r.hour⟩ := by
  intro E
  induction E with
  | nil => intro _ r hr; simp at hr
  | cons e rest ih =>
    intro hnodup r hr
    simp only [List.map_cons, List.nodup_cons] at hnodup
    rcases List.mem_cons.mp hr with rfl | hr2
    · simp only [cache_load_all]
      rw [List.find?_cons_of_pos _ (by simp)]
      rfl
    · have hne : e.path ≠ r.path := by
        intro hc
        exact hnodup.1 (List.mem_map.mpr ⟨r, hr2, hc.symm⟩)
      simp only [cache_load_all]
      rw [List.find?_cons_of_neg _ (by simp [hne])]
      exact ih hnodup.2 r hr2

/-- Loading a path no row carries returns nothing. -/
theorem load_all_of_not_mem :
    ∀ (E : List CacheRow) (p : String), (∀ r ∈ E, r.path ≠ p) →
      cache_load_all E p = none := by
  intro E
  induction E with
  | nil => intro p _; simp [cache_load_all]
  | cons e rest ih =>
    intro p h
    simp only [cache_load_all]
    rw [List.find?_cons_of_neg _ (by simp [h e (by simp)])]
    exact ih p (fun r hr => h r (by simp [hr]))

/-- An `INSERT OR REPLACE` of a row already present (distinct paths) is the
identity. -/
theorem upsertOne_of_mem (E : List CacheRow) (b : CacheRow)
    (hnodup : (E.map (fun r => r.path)).Nodup) (hb : b ∈ E) : upsertOne E b = E := by
  simp only [upsertOne]
  rw [if_pos (List.any_eq_true.mpr ⟨b, hb, by simp⟩)]
  have : ∀ r ∈ E, (if r.path == b.path then b else r) = r := by
    intro r hr
    by_cases hc : r.path = b.path
    · have : r = b := List.inj_on_of_nodup_map hnodup hr hb hc
      simp [this]
    · simp [hc]
  calc E.map (fun r => if r.path == b.path then b else r) = E.map id :=
        List.map_congr_left this
    _ = E := List.map_id E

/-- A batch insert of rows already present (distinct paths) is the
identity. -/
theorem cache_insert_of_mem :
    ∀ (B E : List CacheRow), (E.map (fun r => r.path)).Nodup → (∀ b ∈ B, b ∈ E) →
      cache_insert E B = E := by
  intro B
  induction B with
  | nil => intro E _ _; simp [cache_insert]
  | cons b rest ih =>
    intro E hnodup hmem
    simp only [cache_insert, List.foldl_cons]
    rw [upsertOne_of_mem E b hnodup (hmem b (by simp))]
    exact ih E hnodup (fun x hx => hmem x (by simp [hx]))

/-- **C6**: inserting a batch of entries with distinct paths into an empty
cache and loading yields exactly those entries with identical mtime and
hour per path, nothing is stored under other paths, and re-inserting the
same batch leaves the loaded mapping unchanged (idempotent upsert). -/
theorem cache_round_trip (E : List CacheRow)
    (hnodup : (E.map (fun r => r.path)).Nodup) :
    (∀ r ∈ E, cache_load_all (cache_insert [] E) r.path = some ⟨r.mtime, r.hour⟩) ∧
    (∀ p, (∀ r ∈ E, r.path ≠ p) → cache_load_all (cache_insert [] E) p = none) ∧
    (∀ p, cache_load_all (cache_insert (cache_insert [] E) E) p =
      cache_load_all (cache_insert [] E) p) := by
  have hbase : cache_insert [] E = E := by
    rw [cache_insert_of_fresh E [] (by simp) hnodup]
    simp
  refine ⟨?_, ?_, ?_⟩
  · intro r hr
    rw [hbase]
    exact load_all_of_mem E hnodup r hr
  · intro p hp
    rw [hbase]
    exact load_all_of_not_mem E p hp
  · intro p
    rw [hbase, cache_insert_of_mem E E hnodup (fun b hb => hb)]

/-- Witness for C6 at a concrete two-entry batch. -/
theorem cache_round_trip_witness :
    cache_load_all (cache_insert [] [⟨"p", 1, some 2⟩, ⟨"q", 3, none⟩]) "p" =
      some ⟨1, some 2⟩ ∧
    cache_load_all (cache_insert [] [⟨"p", 1, some 2⟩, ⟨"q", 3, none⟩]) "r" = none ∧
    cache_load_all
        (cache_insert (cache_insert [] [⟨"p", 1, some 2⟩, ⟨"q", 3, none⟩])
          [⟨"p", 1, some 2⟩, ⟨"q", 3, none⟩]) "p" =
      cache_load_all (cache_insert [] [⟨"p", 1, some 2⟩, ⟨"q", 3, none⟩]) "p" :=
  ⟨(cache_round_trip [⟨"p", 1, some 2⟩, ⟨"q", 3, none⟩] (by decide)).1
      ⟨"p", 1, some 2⟩ (by decide),
    (cache_round_trip [⟨"p", 1, some 2⟩, ⟨"q", 3, none⟩] (by decide)).2.1 "r" (by decide),
    (cache_round_trip [⟨"p", 1, some 2⟩, ⟨"q", 3, none⟩] (by decide)).2.2 "p"⟩


/-- Any hour the parser returns is at most 23 (the explicit guard). -/
theorem parse_hour_le (s : List Nat) (h : Nat)
    (hres : parse_hour_from_datetime s = some (some h)) : h ≤ 23 := by
  simp only [parse_hour_from_datetime] at hres
  split at hres
  · split at hres
    · split at hres
      · split at hres <;> simp_all
      · simp_all
    · simp_all
  · simp_all

/-- A string shorter than 13 bytes yields `None` without panicking. -/
theorem parse_hour_short (s : List Nat) (hlen : s.length < 13) :
    parse_hour_from_datetime s = some none := by
  simp only [parse_hour_from_datetime]
  rw [if_neg (by omega)]

/-- In an all-ASCII byte string every position up to the length is a
character boundary. -/
theorem ascii_char_boundary (s : List Nat) (hascii : ∀ b ∈ s, b < 128)
    (i : Nat) (hi : i ≤ s.length) : isCharBoundary s i = true := by
  simp only [isCharBoundary]
  by_cases h0 : i = 0
  · simp [h0]
  · rw [if_neg h0]
    rcases Nat.lt_or_ge i s.length with hlt | hge
    · rw [List.getElem?_eq_getElem hlt]
      have := hascii s[i] (List.getElem_mem hlt)
      simp only [Bool.or_eq_true, decide_eq_true_eq]
      omega
    · have hieq : i = s.length := by omega
      rw [List.getElem?_eq_none (by omega)]
      simp [hieq]

/-- On an all-ASCII byte string the parser never panics. -/
theorem parse_hour_ascii (s : List Nat) (hascii : ∀ b ∈ s, b < 128) :
    (parse_hour_from_datetime s).isSome = true := by
  simp only [parse_hour_from_datetime]
  by_cases hlen : 13 ≤ s.length
  · rw [if_pos hlen]
    rw [if_pos (by
      simp only [Bool.and_eq_true]
      exact ⟨ascii_char_boundary s hascii 11 (by omega),
        ascii_char_boundary s hascii 13 (by omega)⟩)]
    cases hp : parse_u8 ((s.drop 11).take 2) with
    | none => simp
    | some hour => dsimp only; split <;> simp
  · rw [if_neg hlen]
    simp

/-- `u8` parsing of two ASCII digits yields their two-digit value. -/
theorem parse_u8_two_digits (b1 b2 : Nat)
    (hb1 : 48 ≤ b1 ∧ b1 ≤ 57) (hb2 : 48 ≤ b2 ∧ b2 ≤ 57) :
    parse_u8 [b1, b2] = some (10 * (b1 - 48) + (b2 - 48)) := by
  have h43 : ¬([b1, b2].head? = some (43 : Nat)) := by
    simp only [List.head?]
    intro hc
    have : b1 = 43 := by simpa using hc
    omega
  simp only [parse_u8, if_neg h43]
  rw [if_neg (by simp)]
  rw [if_pos (by
    simp only [List.all_cons, List.all_nil, Bool.and_eq_true, decide_eq_true_eq]
    refine ⟨⟨by omega, by omega⟩, ⟨by omega, by omega⟩, trivial⟩)]
  rw [if_pos (by simp only [List.foldl_cons, List.foldl_nil]; omega)]
  simp only [List.foldl_cons, List.foldl_nil, Option.some_inj]
  omega

/-- Evaluation of the parser on an explicitly `YYYY:MM:DD HH:MM:SS`-shaped
byte string: the two hour digits are parsed and guarded against 23. -/
theorem parse_hour_of_shape
    (y1 y2 y3 y4 c1 mo1 mo2 c2 d1 d2 sp h1 h2 c3 mi1 mi2 c4 se1 se2 : Nat)
    (hh1 : 48 ≤ h1 ∧ h1 ≤ 57) (hh2 : 48 ≤ h2 ∧ h2 ≤ 57) (hc3 : c3 < 128) :
    parse_hour_from_datetime
        [y1, y2, y3, y4, c1, mo1, mo2, c2, d1, d2, sp, h1, h2, c3, mi1, mi2, c4, se1, se2] =
      some (if 10 * (h1 - 48) + (h2 - 48) ≤ 23
        then some (10 * (h1 - 48) + (h2 - 48)) else none) := by
  have h11 : ([y1, y2, y3, y4, c1, mo1, mo2, c2, d1, d2, sp, h1, h2, c3, mi1, mi2, c4,
      se1, se2] : List Nat)[11]? = some h1 := rfl
  have h13 : ([y1, y2, y3, y4, c1, mo1, mo2, c2, d1, d2, sp, h1, h2, c3, mi1, mi2, c4,
      se1, se2] : List Nat)[13]? = some c3 := rfl
  have hb11 : isCharBoundary
      [y1, y2, y3, y4, c1, mo1, mo2, c2, d1, d2, sp, h1, h2, c3, mi1, mi2, c4, se1, se2]
      11 = true := by
    simp only [isCharBoundary, h11]
    rw [if_neg (by decide)]
    simp only [Bool.or_eq_true, decide_eq_true_eq]
    omega
  have hb13 : isCharBoundary
      [y1, y2, y3, y4, c1, mo1, mo2, c2, d1, d2, sp, h1, h2, c3, mi1, mi2, c4, se1, se2]
      13 = true := by
    simp only [isCharBoundary, h13]
    rw [if_neg (by decide)]
    simp only [Bool.or_eq_true, decide_eq_true_eq]
    omega
  simp only [parse_hour_from_datetime]
  rw [if_pos (by simp)]
  rw [if_pos (by simp [hb11, hb13])]
  have hdrop : (([y1, y2, y3, y4, c1, mo1, mo2, c2, d1, d2, sp, h1, h2, c3, mi1, mi2, c4,
      se1, se2] : List Nat).drop 11).take 2 = [h1, h2] := rfl
  rw [hdrop, parse_u8_two_digits h1 h2 hh1 hh2]
  by_cases hv : 10 * (h1 - 48) + (h2 - 48) ≤ 23 <;> simp [hv]

/-- On a `YYYY:MM:DD HH:MM:SS`-shaped byte string the parser returns the
hour field when it is at most 23 and `None` otherwise. -/
theorem parse_hour_shaped (s : List Nat) (hsh : datetimeShaped s = true) :
    parse_hour_from_datetime s =
      some (if hourField s ≤ 23 then some (hourField s) else none) := by
  rw [datetimeShaped.eq_def] at hsh
  split at hsh
  · rename_i y1 y2 y3 y4 c1 mo1 mo2 c2 d1 d2 sp h1 h2 c3 mi1 mi2 c4 se1 se2
    simp only [isDigitByte, Bool.and_eq_true, decide_eq_true_eq] at hsh
    have hh1 : 48 ≤ h1 ∧ h1 ≤ 57 := by omega
    have hh2 : 48 ≤ h2 ∧ h2 ≤ 57 := by omega
    have hc3 : c3 < 128 := by omega
    have hfield : hourField
        [y1, y2, y3, y4, c1, mo1, mo2, c2, d1, d2, sp, h1, h2, c3, mi1, mi2, c4, se1, se2] =
        10 * (h1 - 48) + (h2 - 48) := rfl
    rw [hfield]
    exact parse_hour_of_shape y1 y2 y3 y4 c1 mo1 mo2 c2 d1 d2 sp h1 h2 c3 mi1 mi2 c4
      se1 se2 hh1 hh2 hc3
  · exact absurd hsh (by simp)

/-- With no `DateTimeOriginal` entry present, hour extraction yields
`None`. -/
theorem extract_hour_no_tag : ∀ (entries : List ExifEntry),
    (∀ e ∈ entries, e.isDateTimeOriginal = false) →
    extract_hour_from_exif entries = some none := by
  intro entries
  induction entries with
  | nil => intro _; rfl
  | cons e rest ih =>
    intro h
    simp only [extract_hour_from_exif]
    rw [if_neg (by simp [h e (by simp)])]
    exact ih (fun x hx => h x (by simp [hx]))

/-- Any hour that hour extraction returns is at most 23. -/
theorem extract_hour_le : ∀ (entries : List ExifEntry) (h : Nat),
    extract_hour_from_exif entries = some (some h) → h ≤ 23 := by
  intro entries
  induction entries with
  | nil =>
    intro h hres
    simp [extract_hour_from_exif] at hres
  | cons e rest ih =>
    intro h hres
    simp only [extract_hour_from_exif] at hres
    split at hres
    · split at hres
      · rename_i s0
        split at hres
        · exact absurd hres (by simp)
        · rename_i hour hp
          obtain rfl : hour = h := by simpa using hres
          exact parse_hour_le _ _ hp
        · exact ih h hres
      · exact ih h hres
    · exact ih h hres

/-- **C4** (amended): hour extraction returns `Some h` with `h ≤ 23` on a
`YYYY:MM:DD HH:MM:SS`-shaped string whose hour field is at most 23, returns
`None` on a parse failure, an out-of-range hour or an absent tag, and does
not panic on short or malformed strings *whose bytes are ASCII*; the
original claim said it also never panics on non-ASCII strings, which the
counterexample refutes. -/
theorem parse_hour_contract (s : List Nat) :
    (∀ h, parse_hour_from_datetime s = some (some h) → h ≤ 23) ∧
    (s.length < 13 → parse_hour_from_datetime s = some none) ∧
    ((∀ b ∈ s, b < 128) → (parse_hour_from_datetime s).isSome = true) ∧
    (datetimeShaped s = true →
      parse_hour_from_datetime s =
        some (if hourField s ≤ 23 then some (hourField s) else none)) ∧
    (∀ entries : List ExifEntry, (∀ e ∈ entries, e.isDateTimeOriginal = false) →
      extract_hour_from_exif entries = some none) ∧
    (∀ (entries : List ExifEntry) (h : Nat),
      extract_hour_from_exif entries = some (some h) → h ≤ 23) :=
  ⟨fun h => parse_hour_le s h, parse_hour_short s, parse_hour_ascii s,
    parse_hour_shaped s, extract_hour_no_tag, extract_hour_le⟩

/-- **C4** counterexample: on the 14-byte, valid-UTF-8 string made of ten
ASCII digits, the two-byte letter e-acute, and two ASCII letters, the byte
slice of positions 11..13 in `parse_hour_from_datetime` panics — byte
position 11 falls inside the two-byte character — refuting the claim that
the function never fails with an error on non-ASCII datetime strings
(`none` here models the panic). -/
theorem parse_hour_contract_counterexample :
    parse_hour_from_datetime
      [48, 49, 50, 51, 52, 53, 54, 55, 56, 57, 195, 169, 120, 120] = none := by
  decide

/-- Witness for C4 at a concrete well-formed datetime, a short string and
an empty entry list. -/
theorem parse_hour_contract_witness :
    parse_hour_from_datetime
        [50, 48, 50, 51, 58, 48, 49, 58, 48, 50, 32, 49, 51, 58, 51, 55, 58, 48, 48] =
      some (some 13) ∧
    parse_hour_from_datetime [48, 49] = some none ∧
    extract_hour_from_exif [] = some none :=
  ⟨((parse_hour_contract
        [50, 48, 50, 51, 58, 48, 49, 58, 48, 50, 32, 49, 51, 58, 51, 55, 58, 48, 48]).2.2.2.1
      (by decide)).trans (by decide),
    (parse_hour_contract [48, 49]).2.1 (by decide),
    (parse_hour_contract []).2.2.2.2.1 [] (by simp)⟩


/-- When the cached pipeline succeeds, the returned candidate list joins
every image to process with its resolved hour (freshly parsed entries
first, cached hour as fallback). -/
theorem get_candidates_ok_shape (env : CacheEnv) (exifHour : String → Option Nat)
    (imgs all : List ImageFile) (c : List ImageCandidate) (db2 : List CacheRow)
    (hres : get_candidates_with_cache env exifHour imgs all = Except.ok (c, db2)) :
    c = imgs.map (fun i =>
      (⟨i.path,
        ((((all.filter (fun j =>
              match cache_load_all env.db j.path with
              | some entry => entry.mtime != j.mtime
              | none => true)).map (fun j =>
                (⟨j.path, j.mtime, exifHour j.path⟩ : CacheRow))).find?
            (fun r => r.path == i.path)).map (fun r => r.hour)).join.or
          ((cache_load_all env.db i.path).bind (fun e => e.hour))⟩ : ImageCandidate)) := by
  simp only [get_candidates_with_cache] at hres
  split at hres
  · exact absurd hres (by simp)
  · split at hres
    · exact absurd hres (by simp)
    · split at hres
      · exact absurd hres (by simp)
      · split at hres
        · exact absurd hres (by simp)
        · exact (congrArg Prod.fst (Except.ok.inj hres)).symm

/-- **C8**: a failing cache operation is not fatal: whenever
`get_candidates_with_cache` returns an error — in particular when the store
cannot be opened — `main` falls back so that every photo in the pool gets a
candidate whose hour comes from direct EXIF extraction of the current run,
and in every case (success or failure) each photo of the pool yields
exactly one candidate under its own path. A failed transaction returns
before mutating the table (`cache_insert_tx` / `cleanup_stale_tx`), so only
the cache-mutation step is aborted. -/
theorem cache_failure_fallback (env : CacheEnv) (exifHour : String → Option Nat)
    (imgs all : List ImageFile) :
    (∀ e, get_candidates_with_cache env exifHour imgs all = Except.error e →
      mainCandidates env exifHour imgs all =
        imgs.map (fun i => ⟨i.path, exifHour i.path⟩)) ∧
    ((mainCandidates env exifHour imgs all).map (fun c => c.path) =
      imgs.map (fun i => i.path)) ∧
    (env.openFails = true →
      mainCandidates env exifHour imgs all =
        imgs.map (fun i => ⟨i.path, exifHour i.path⟩)) := by
  have herr : ∀ e, get_candidates_with_cache env exifHour imgs all = Except.error e →
      mainCandidates env exifHour imgs all =
        imgs.map (fun i => ⟨i.path, exifHour i.path⟩) := by
    intro e he
    simp [mainCandidates, he]
  refine ⟨herr, ?_, ?_⟩
  · cases hres : get_candidates_with_cache env exifHour imgs all with
    | error e =>
      rw [herr e hres]
      simp [List.map_map, Function.comp]
    | ok pair =>
      obtain ⟨c, db2⟩ := pair
      have hc := get_candidates_ok_shape env exifHour imgs all c db2 hres
      have hmain : mainCandidates env exifHour imgs all = c := by
        simp [mainCandidates, hres]
      rw [hmain, hc]
      simp [List.map_map, Function.comp]
  · intro hopen
    apply herr ()
    simp [get_candidates_with_cache, hopen]

/-- Witness for C8: with a failing insert transaction (and with a failing
open), a one-photo pool still yields the directly-extracted candidate. -/
theorem cache_failure_fallback_witness :
    mainCandidates ⟨false, false, true, false, []⟩ (fun _ => some 7) [⟨"x", 1⟩] [⟨"x", 1⟩] =
      [⟨"x", some 7⟩] ∧
    mainCandidates ⟨true, false, false, false, []⟩ (fun _ => some 7) [⟨"x", 1⟩] [⟨"x", 1⟩] =
      [⟨"x", some 7⟩] :=
  ⟨((cache_failure_fallback ⟨false, false, true, false, []⟩ (fun _ => some 7)
      [⟨"x", 1⟩] [⟨"x", 1⟩]).1 () (by rfl)).trans rfl,
    ((cache_failure_fallback ⟨true, false, false, false, []⟩ (fun _ => some 7)
      [⟨"x", 1⟩] [⟨"x", 1⟩]).2.2 rfl).trans rfl⟩


/-- Counting all-black pixels onto an all-black accumulator only bumps the
single count. -/
theorem countColors_black :
    ∀ (l : List Rgb) (n : Nat), (∀ p ∈ l, p = ⟨0, 0, 0⟩) →
      countColors l [(⟨0, 0, 0⟩, n)] = [(⟨0, 0, 0⟩, n + l.length)] := by
  intro l
  induction l with
  | nil => intro n _; simp [countColors]
  | cons p rest ih =>
    intro n hb
    obtain rfl : p = ⟨0, 0, 0⟩ := hb p (by simp)
    have hq : quantize ⟨0, 0, 0⟩ = ⟨0, 0, 0⟩ := rfl
    simp only [countColors, hq]
    rw [if_pos (by simp)]
    have hmap : List.map
        (fun e => if e.1 == (⟨0, 0, 0⟩ : Rgb) then (e.1, e.2 + 1) else e)
        [((⟨0, 0, 0⟩ : Rgb), n)] = [((⟨0, 0, 0⟩ : Rgb), n + 1)] := by
      simp
    rw [hmap, ih (n + 1) (fun q hq => hb q (by simp [hq]))]
    simp only [List.length_cons]
    congr 2
    omega

/-- A non-empty all-black pixel list quantizes and counts to the single
entry (black, number of pixels). -/
theorem countColors_all_black (pixels : List Rgb) (hne : pixels ≠ [])
    (hblack : ∀ p ∈ pixels, p = ⟨0, 0, 0⟩) :
    countColors pixels [] = [(⟨0, 0, 0⟩, pixels.length)] := by
  match pixels, hne with
  | p :: rest, _ =>
    obtain rfl : p = ⟨0, 0, 0⟩ := hblack p (by simp)
    have hq : quantize ⟨0, 0, 0⟩ = ⟨0, 0, 0⟩ := rfl
    simp only [countColors, hq]
    rw [if_neg (by simp)]
    simp only [List.nil_append]
    rw [countColors_black rest 1 (fun q hq => hblack q (by simp [hq]))]
    simp only [List.length_cons]
    congr 2
    omega

/-- **C9**: for a non-empty image whose pixels are all black,
`extract_palette` returns the hard-coded fallback accent (255,170,100):
no quantized color passes the luminance band (black has luminance 0), and
the post-correction leaves the fallback unchanged since its luminance is
not below 0.3. -/
theorem extract_palette_all_black (pixels : List Rgb) (hne : pixels ≠ [])
    (hblack : ∀ p ∈ pixels, p = ⟨0, 0, 0⟩) :
    (extract_palette pixels).accent = ⟨255, 170, 100⟩ ∧
    ¬(Rgb.luminance ⟨255, 170, 100⟩ < (3 : ℚ)/10) := by
  have hnotlow : ¬(Rgb.luminance ⟨255, 170, 100⟩ < (3 : ℚ)/10) := by
    norm_num [Rgb.luminance]
  refine ⟨?_, hnotlow⟩
  have hcount := countColors_all_black pixels hne hblack
  simp only [extract_palette, hcount]
  have hsort : sortByCountDesc [((⟨0, 0, 0⟩ : Rgb), pixels.length)] =
      [((⟨0, 0, 0⟩ : Rgb), pixels.length)] := rfl
  rw [hsort]
  have htake : ([((⟨0, 0, 0⟩ : Rgb), pixels.length)] : List (Rgb × Nat)).take 20 =
      [((⟨0, 0, 0⟩ : Rgb), pixels.length)] := rfl
  rw [htake]
  have hfilter : ([((⟨0, 0, 0⟩ : Rgb), pixels.length)] : List (Rgb × Nat)).filter
      (fun e => (15 : ℚ)/100 < Rgb.luminance e.1 && Rgb.luminance e.1 < (85 : ℚ)/100) =
      [] := by
    rw [List.filter_cons, if_neg (by norm_num [Rgb.luminance]), List.filter_nil]
  rw [hfilter]
  simp only [maxByScore, List.foldl_nil]
  rw [show (Option.map (fun e => e.1) (none : Option (Rgb × Nat))).getD
      (⟨255, 170, 100⟩ : Rgb) = ⟨255, 170, 100⟩ from rfl]
  rw [if_neg hnotlow]

/-- Witness for C9 at a concrete all-black 64 by 64 pixel list. -/
theorem extract_palette_all_black_witness :
    (List.replicate 4096 (⟨0, 0, 0⟩ : Rgb) ≠ []) ∧
    (extract_palette (List.replicate 4096 (⟨0, 0, 0⟩ : Rgb))).accent = ⟨255, 170, 100⟩ := by
  have hne : List.replicate 4096 (⟨0, 0, 0⟩ : Rgb) ≠ [] := by
    apply List.length_pos.mp
    rw [List.length_replicate]
    omega
  exact ⟨hne,
    (extract_palette_all_black (List.replicate 4096 ⟨0, 0, 0⟩) hne
      (fun p hp => List.eq_of_mem_replicate hp)).1⟩


/-- For a current hour and an image hour both in [0,23], the circular
distance lies in [0,12]. -/
theorem calculate_time_diff_range (cur : Int) (h : Nat)
    (h0 : 0 ≤ cur) (h23 : cur ≤ 23) (hh : h ≤ 23) :
    0 ≤ calculate_time_diff cur h ∧ calculate_time_diff cur h ≤ 12 := by
  simp only [calculate_time_diff]
  rw [Int.tmod_eq_emod (by omega) (by norm_num)]
  split <;> omega

/-- One loop iteration appends the candidate to the window matches exactly
when it is in the time window. -/
theorem selStep_twm (cur : Int) (s : SelState) (c : ImageCandidate) :
    (selStep cur s c).time_window_matches =
      s.time_window_matches ++ (if inWindow cur c then [c] else []) := by
  obtain ⟨cp, chour⟩ := c
  cases chour with
  | none => simp [selStep, inWindow]
  | some h =>
    simp only [selStep, inWindow]
    split_ifs <;> simp_all <;> omega

/-- One loop iteration updates the best match exactly when the candidate
has a known hour strictly closer than the best so far. -/
theorem selStep_best (cur : Int) (s : SelState) (c : ImageCandidate) :
    (selStep cur s c).best_match =
      (match c.hour with
        | none => s.best_match
        | some h => if calculate_time_diff cur h < s.best_diff then some c
            else s.best_match) ∧
    (selStep cur s c).best_diff =
      (match c.hour with
        | none => s.best_diff
        | some h => if calculate_time_diff cur h < s.best_diff then
            calculate_time_diff cur h else s.best_diff) := by
  obtain ⟨cp, chour⟩ := c
  cases chour with
  | none => exact ⟨rfl, rfl⟩
  | some h =>
    simp only [selStep]
    by_cases hw : calculate_time_diff cur h ≤ TIME_WINDOW <;>
      by_cases hd : calculate_time_diff cur h < s.best_diff <;>
        simp [hw, hd]

/-- The selection loop accumulates exactly the time-window set, in list
order. -/
theorem selLoop_twm (cur : Int) : ∀ (l : List ImageCandidate) (s : SelState),
    (selLoop cur l s).time_window_matches =
      s.time_window_matches ++ windowSet cur l := by
  intro l
  induction l with
  | nil => intro s; simp [selLoop, windowSet]
  | cons c rest ih =>
    intro s
    simp only [selLoop]
    rw [ih (selStep cur s c), selStep_twm]
    simp only [windowSet, List.filter_cons]
    by_cases hw : inWindow cur c <;> simp [hw, windowSet]

/-- The selection loop folds the best match of the list into the incoming
state: the best of the list wins exactly when strictly closer than the
incoming best distance. -/
theorem selLoop_best (cur : Int) : ∀ (l : List ImageCandidate) (s : SelState),
    (selLoop cur l s).best_match =
      (match bestOf cur l with
        | none => s.best_match
        | some (c, d) => if d < s.best_diff then some c else s.best_match) ∧
    (selLoop cur l s).best_diff =
      (match bestOf cur l with
        | none => s.best_diff
        | some (c, d) => if d < s.best_diff then d else s.best_diff) := by
  intro l
  induction l with
  | nil => intro s; exact ⟨rfl, rfl⟩
  | cons c rest ih =>
    intro s
    simp only [selLoop]
    obtain ⟨ihm, ihd⟩ := ih (selStep cur s c)
    obtain ⟨hsm, hsd⟩ := selStep_best cur s c
    rw [ihm, ihd, hsm, hsd]
    obtain ⟨cp, chour⟩ := c
    cases chour with
    | none => exact ⟨rfl, rfl⟩
    | some h =>
      simp only [bestOf]
      cases hbo : bestOf cur rest with
      | none => exact ⟨rfl, rfl⟩
      | some pair =>
        obtain ⟨c2, d2⟩ := pair
        constructor
        · by_cases h1 : calculate_time_diff cur h < s.best_diff <;>
            by_cases h2 : d2 < calculate_time_diff cur h <;>
              by_cases h3 : d2 < s.best_diff <;>
                simp [h1, h2, h3] <;> omega
        · by_cases h1 : calculate_time_diff cur h < s.best_diff <;>
            by_cases h2 : d2 < calculate_time_diff cur h <;>
              by_cases h3 : d2 < s.best_diff <;>
                simp [h1, h2, h3] <;> omega

/-- There is no minimal distance exactly when no candidate has a known
hour. -/
theorem minDiff_eq_none_iff (cur : Int) : ∀ (l : List ImageCandidate),
    minDiff cur l = none ↔ ∀ c ∈ l, c.hour = none := by
  intro l
  induction l with
  | nil => simp [minDiff]
  | cons c rest ih =>
    obtain ⟨cp, chour⟩ := c
    cases chour with
    | none =>
      simp only [minDiff]
      rw [ih]
      constructor
      · intro hall x hx
        rcases List.mem_cons.mp hx with rfl | hx2
        · rfl
        · exact hall x hx2
      · intro hall x hx
        exact hall x (by simp [hx])
    | some h =>
      simp only [minDiff]
      constructor
      · intro hc
        cases hm : minDiff cur rest <;> simp [hm] at hc
      · intro hall
        exact absurd (hall ⟨cp, some h⟩ (by simp)) (by simp)

/-- The best pair comes from a member of the list, with its distance. -/
theorem bestOf_shape (cur : Int) : ∀ (l : List ImageCandidate) (c : ImageCandidate)
    (d : Int), bestOf cur l = some (c, d) →
    c ∈ l ∧ ∃ h, c.hour = some h ∧ d = calculate_time_diff cur h := by
  intro l
  induction l with
  | nil => intro c d hres; simp [bestOf] at hres
  | cons c0 rest ih =>
    intro c d hres
    obtain ⟨cp, chour⟩ := c0
    cases chour with
    | none =>
      simp only [bestOf] at hres
      obtain ⟨hmem, hrest⟩ := ih c d hres
      exact ⟨by simp [hmem], hrest⟩
    | some h =>
      simp only [bestOf] at hres
      cases hbo : bestOf cur rest with
      | none =>
        rw [hbo] at hres
        obtain ⟨rfl, rfl⟩ : ⟨cp, some h⟩ = c ∧ calculate_time_diff cur h = d := by
          simpa using hres
        exact ⟨by simp, h, rfl, rfl⟩
      | some pair =>
        obtain ⟨c2, d2⟩ := pair
        simp only [hbo] at hres
        by_cases hlt : d2 < calculate_time_diff cur h
        · rw [if_pos hlt] at hres
          obtain ⟨hmem, hrest⟩ := ih c2 d2 hbo
          obtain ⟨rfl, rfl⟩ : c2 = c ∧ d2 = d := by simpa using hres
          exact ⟨by simp [hmem], hrest⟩
        · rw [if_neg hlt] at hres
          obtain ⟨rfl, rfl⟩ : ⟨cp, some h⟩ = c ∧ calculate_time_diff cur h = d := by
            simpa using hres
          exact ⟨by simp, h, rfl, rfl⟩

/-- The best candidate attains the minimal distance and is the first
candidate in list order to do so. -/
theorem bestOf_minDiff (cur : Int) : ∀ (l : List ImageCandidate),
    (minDiff cur l = none → bestOf cur l = none) ∧
    (∀ m, minDiff cur l = some m → ∃ c, bestOf cur l = some (c, m) ∧
      l.find? (atMinDiff cur m) = some c) := by
  intro l
  induction l with
  | nil => exact ⟨fun _ => rfl, fun m hm => by simp [minDiff] at hm⟩
  | cons c0 rest ih =>
    obtain ⟨cp, chour⟩ := c0
    cases chour with
    | none =>
      constructor
      · intro hm
        simp only [minDiff] at hm
        simp only [bestOf]
        exact ih.1 hm
      · intro m hm
        simp only [minDiff] at hm
        obtain ⟨c, hbo, hfind⟩ := ih.2 m hm
        refine ⟨c, ?_, ?_⟩
        · simp only [bestOf]; exact hbo
        · rw [List.find?_cons_of_neg _ (by simp [atMinDiff])]
          exact hfind
    | some h =>
      constructor
      · intro hm
        simp only [minDiff] at hm
        cases hrest : minDiff cur rest <;> simp [hrest] at hm
      · intro m hm
        simp only [minDiff] at hm
        cases hrest : minDiff cur rest with
        | none =>
          rw [hrest] at hm
          obtain rfl : calculate_time_diff cur h = m := by simpa using hm
          refine ⟨⟨cp, some h⟩, ?_, ?_⟩
          · simp only [bestOf, ih.1 hrest]
          · rw [List.find?_cons_of_pos _ (by simp [atMinDiff])]
        | some m0 =>
          rw [hrest] at hm
          obtain rfl : min (calculate_time_diff cur h) m0 = m := by simpa using hm
          obtain ⟨c2, hbo2, hfind2⟩ := ih.2 m0 hrest
          by_cases hdm : m0 < calculate_time_diff cur h
          · have hmin : min (calculate_time_diff cur h) m0 = m0 :=
              min_eq_right (le_of_lt hdm)
            refine ⟨c2, ?_, ?_⟩
            · simp only [bestOf, hbo2]
              rw [if_pos hdm, hmin]
            · rw [hmin]
              rw [List.find?_cons_of_neg _ (by
                simp only [atMinDiff, decide_eq_true_eq]
                omega)]
              exact hfind2
          · have hmin : min (calculate_time_diff cur h) m0 = calculate_time_diff cur h :=
              min_eq_left (by omega)
            refine ⟨⟨cp, some h⟩, ?_, ?_⟩
            · simp only [bestOf, hbo2]
              rw [if_neg hdm, hmin]
            · rw [hmin]
              rw [List.find?_cons_of_pos _ (by simp [atMinDiff])]

/-- Random choice yields nothing exactly on the empty slice. -/
theorem chooseFrom_eq_none_iff {α : Type} (l : List α) (k : Nat) :
    chooseFrom l k = none ↔ l = [] := by
  simp only [chooseFrom]
  by_cases he : l.isEmpty
  · simp [he, List.isEmpty_iff.mp he]
  · have hne : l ≠ [] := fun hc => he (List.isEmpty_iff.mpr hc)
    have hpos : 0 < l.length := List.length_pos.mpr hne
    have hlt : k % l.length < l.length := Nat.mod_lt k hpos
    rw [if_neg he, List.getElem?_eq_getElem hlt]
    simp [hne]

/-- Random choice picks a member of the slice. -/
theorem chooseFrom_mem {α : Type} (l : List α) (k : Nat) (x : α)
    (hres : chooseFrom l k = some x) : x ∈ l := by
  simp only [chooseFrom] at hres
  split at hres
  · exact absurd hres (by simp)
  · obtain ⟨hlt, rfl⟩ := List.getElem?_eq_some.mp hres
    exact List.getElem_mem hlt

/-- **C1**: for every candidate list with hours in [0,23] and every current
hour in [0,23], under any draw of the random source: if the time-window set
is non-empty the selected candidate is a member of it; else if any
candidate has a known hour the selected candidate is the first candidate in
list order whose circular distance is globally minimal; else the selected
candidate is a member of the full list; and the selection is `none` exactly
when the candidate list is empty. -/
theorem selection_policy (cur : Int) (candidates : List ImageCandidate) (k : Nat)
    (hcur0 : 0 ≤ cur) (hcur23 : cur ≤ 23)
    (hhours : ∀ c ∈ candidates, ∀ h, c.hour = some h → h ≤ 23) :
    (windowSet cur candidates ≠ [] →
      ∃ x, selectWallpaper cur candidates k = some x ∧ x ∈ windowSet cur candidates) ∧
    (windowSet cur candidates = [] → (∃ c ∈ candidates, c.hour.isSome) →
      selectWallpaper cur candidates k = firstGlobalMin cur candidates ∧
      firstGlobalMin cur candidates ≠ none) ∧
    ((∀ c ∈ candidates, c.hour = none) →
      ∀ x, selectWallpaper cur candidates k = some x → x ∈ candidates) ∧
    (selectWallpaper cur candidates k = none ↔ candidates = []) := by
  have htwm : (selLoop cur candidates ⟨none, 24, []⟩).time_window_matches =
      windowSet cur candidates := by
    have := selLoop_twm cur candidates ⟨none, 24, []⟩
    simpa using this
  have hsel : selectWallpaper cur candidates k =
      if !(windowSet cur candidates).isEmpty then chooseFrom (windowSet cur candidates) k
      else match (selLoop cur candidates ⟨none, 24, []⟩).best_match with
        | some best => some best
        | none => chooseFrom candidates k := by
    simp only [selectWallpaper, htwm]
  have hrange : ∀ c d, bestOf cur candidates = some (c, d) → 0 ≤ d ∧ d ≤ 12 := by
    intro c d hbo
    obtain ⟨hmem, h, hh, rfl⟩ := bestOf_shape cur candidates c d hbo
    exact calculate_time_diff_range cur h hcur0 hcur23 (hhours c hmem h hh)
  have hbm : (selLoop cur candidates ⟨none, 24, []⟩).best_match =
      (match bestOf cur candidates with
        | none => none
        | some (c, _) => some c) := by
    rw [(selLoop_best cur candidates ⟨none, 24, []⟩).1]
    cases hbo : bestOf cur candidates with
    | none => rfl
    | some pair =>
      obtain ⟨c, d⟩ := pair
      obtain ⟨hd0, hd12⟩ := hrange c d hbo
      dsimp only
      rw [if_pos (by change d < 24; omega)]
  refine ⟨?_, ?_, ?_, ?_⟩
  · intro hwne
    rw [hsel, if_pos (by simp [List.isEmpty_iff, hwne])]
    cases hch : chooseFrom (windowSet cur candidates) k with
    | none => exact absurd ((chooseFrom_eq_none_iff _ _).mp hch) hwne
    | some x => exact ⟨x, rfl, chooseFrom_mem _ _ _ hch⟩
  · intro hw hex
    have hmd : minDiff cur candidates ≠ none := by
      intro hmdeq
      obtain ⟨c, hc, hsome⟩ := hex
      rw [(minDiff_eq_none_iff cur candidates).mp hmdeq c hc] at hsome
      simp at hsome
    cases hmgot : minDiff cur candidates with
    | none => exact absurd hmgot hmd
    | some m =>
      obtain ⟨c, hbo, hfind⟩ := (bestOf_minDiff cur candidates).2 m hmgot
      have hfg : firstGlobalMin cur candidates = some c := by
        simp only [firstGlobalMin, hmgot]
        exact hfind
      refine ⟨?_, by simp [hfg]⟩
      rw [hsel, if_neg (by simp [hw]), hbm, hbo, hfg]
  · intro hall x hx
    have hwempty : windowSet cur candidates = [] := by
      simp only [windowSet, List.filter_eq_nil_iff]
      intro c hc
      simp [inWindow, hall c hc]
    have hmd : minDiff cur candidates = none := (minDiff_eq_none_iff cur candidates).mpr hall
    have hbo : bestOf cur candidates = none := (bestOf_minDiff cur candidates).1 hmd
    rw [hsel, if_neg (by simp [hwempty])] at hx
    simp only [hbm, hbo] at hx
    exact chooseFrom_mem _ _ _ hx
  · constructor
    · intro hnone
      by_contra hne
      rw [hsel] at hnone
      by_cases hw : (windowSet cur candidates).isEmpty
      · rw [if_neg (by simp [hw])] at hnone
        cases hbo : bestOf cur candidates with
        | some pair =>
          obtain ⟨c, d⟩ := pair
          simp [hbm, hbo] at hnone
        | none =>
          simp only [hbm, hbo] at hnone
          exact hne ((chooseFrom_eq_none_iff _ _).mp hnone)
      · rw [if_pos (by simp [hw])] at hnone
        exact hw (by simp [(chooseFrom_eq_none_iff _ _).mp hnone])
    · intro hnil
      subst hnil
      rfl

/-- Witness for C1: hours [10,14,23] at current hour 23 select within the
window; hours [10,14] select the first global minimum (hour 14); the empty
list selects nothing. -/
theorem selection_policy_witness :
    (∃ x, selectWallpaper 23 [⟨"a", some 10⟩, ⟨"b", some 14⟩, ⟨"c", some 23⟩] 0 = some x ∧
      x ∈ windowSet 23 [⟨"a", some 10⟩, ⟨"b", some 14⟩, ⟨"c", some 23⟩]) ∧
    (selectWallpaper 23 [⟨"a", some 10⟩, ⟨"b", some 14⟩] 0 =
      firstGlobalMin 23 [⟨"a", some 10⟩, ⟨"b", some 14⟩]) ∧
    (selectWallpaper 23 ([] : List ImageCandidate) 0 = none) :=
  ⟨(selection_policy 23 [⟨"a", some 10⟩, ⟨"b", some 14⟩, ⟨"c", some 23⟩] 0 (by norm_num)
      (by norm_num) (by intro c hc h hh; fin_cases hc <;> simp_all <;> omega)).1 (by decide),
    ((selection_policy 23 [⟨"a", some 10⟩, ⟨"b", some 14⟩] 0 (by norm_num) (by norm_num)
      (by intro c hc h hh; fin_cases hc <;> simp_all <;> omega)).2.1 (by decide)
      ⟨⟨"a", some 10⟩, by decide, by decide⟩).1,
    ((selection_policy 23 ([] : List ImageCandidate) 0 (by norm_num) (by norm_num)
      (by intro c hc h hh; simp at hc)).2.2.2).mpr rfl⟩


end WallpaperSlideshow
